import Mathlib

/-!
Verification of the tag-based markdown file router (`obsidian_organizer.py`).

The Python source is shallowly embedded: strings are Lean `String`s
(operated on through their `List Char` data to keep every function
executable and kernel-reducible), the regular expressions of the source
are translated into explicit character-list scanners with the exact
matching semantics of Python's `re` module on the patterns involved
(lazy `.*?`, `re.DOTALL`, the `$` anchor also matching just before one
trailing newline), `os.walk` over a directory tree becomes a recursive
walk over an inductive tree whose nodes carry a readability flag
(`os.walk` with `onerror=None` silently skips a directory it cannot
scan), and the Python `dict` becomes an association list with
insert-or-overwrite-in-place semantics, which preserves the insertion
iteration order of Python dictionaries.  `\d` and `str.lower` are
modelled on the ASCII range, which covers every string the program's
own patterns produce.
-/

namespace ObsidianOrganizer

/-! ### Character helpers -/

/-- ASCII lowering of one character, the behaviour of Python `str.lower`
on the ASCII range. -/
def lowerChar (c : Char) : Char :=
  if 65 ≤ c.toNat ∧ c.toNat ≤ 90 then Char.ofNat (c.toNat + 32) else c

/-- Python `str.lower` (ASCII range). -/
def lowerStr (s : String) : String := ⟨s.data.map lowerChar⟩

/-- Python regex `\s` on the ASCII range. -/
def isPySpace (c : Char) : Bool :=
  c == ' ' || c == '\t' || c == '\n' || c == '\r' || c == '\x0b' || c == '\x0c'

/-! ### Tag extraction: `extract_tags`

The source tries `re.search` of pattern 1,
`\*\*\*Tags:\*\*\s*(\[\[.*?\]\].*?)(?:\n|$)` with `re.DOTALL`, first;
on success it returns the `\[\[(.*?)\]\]` tokens of group 1, otherwise
it returns every `\[\[(.*?)\]\]` token of the whole content (the empty
list when nothing matches). -/

/-- Lazy scan for the interior of `\[\[(.*?)\]\]` without `re.DOTALL`:
the earliest `]]` is taken and `.` does not match a newline.  Returns
the interior and the remainder after the closing `]]`. -/
def scanInterior : List Char → Option (List Char × List Char)
  | [] => none
  | c :: rest =>
    if c = ']' ∧ rest.head? = some ']' then some ([], rest.tail)
    else if c = '\n' then none
    else
      match scanInterior rest with
      | some (i, r) => some (c :: i, r)
      | none => none

/-- `re.findall` of `\[\[(.*?)\]\]`, fuelled so that the recursion is
structural (a failed or successful attempt always moves the scan
forward, so fuel equal to the input length never runs out):
non-overlapping, leftmost, lazy interior, no `re.DOTALL`. -/
def findBracketsF : Nat → List Char → List String
  | 0, _ => []
  | _ + 1, [] => []
  | fuel + 1, c :: rest =>
    if c = '[' ∧ rest.head? = some '[' then
      match scanInterior rest.tail with
      | some (i, r) => ⟨i⟩ :: findBracketsF fuel r
      | none => findBracketsF fuel rest
    else findBracketsF fuel rest

/-- `re.findall` of `\[\[(.*?)\]\]` over a character list. -/
def findAllBrackets (cs : List Char) : List String := findBracketsF cs.length cs

/-- Lazy scan for `\]\]` with `re.DOTALL` in force: the earliest `]]`
is taken and the interior may contain newlines. -/
def scanToClose : List Char → Option (List Char × List Char)
  | [] => none
  | c :: rest =>
    if c = ']' ∧ rest.head? = some ']' then some ([], rest.tail)
    else
      match scanToClose rest with
      | some (i, r) => some (c :: i, r)
      | none => none

/-- `.*?(?:\n|$)` after the first bracket pair: the characters up to
(excluding) the first newline, or to the end of the string (`$`). -/
def takeToNewline : List Char → List Char
  | [] => []
  | c :: rest => if c = '\n' then [] else c :: takeToNewline rest

/-- The literal characters of the marker `***Tags:**`. -/
def tagsMarker : List Char := ['*', '*', '*', 'T', 'a', 'g', 's', ':', '*', '*']

/-- Attempt the part of pattern 1 that follows the marker:
`\s*(\[\[.*?\]\].*?)(?:\n|$)` with `re.DOTALL`; returns group 1. -/
def matchAfterMarker (s : List Char) : Option (List Char) :=
  match s.dropWhile isPySpace with
  | '[' :: '[' :: rest =>
    match scanToClose rest with
    | some (i, r) => some ('[' :: '[' :: (i ++ ']' :: ']' :: takeToNewline r))
    | none => none
  | _ => none

/-- `re.search` of pattern 1 over the whole content: the match at the
leftmost possible starting position wins; returns group 1. -/
def searchTagsBlock : List Char → Option (List Char)
  | [] => none
  | c :: rest =>
    if tagsMarker.isPrefixOf (c :: rest) then
      match matchAfterMarker ((c :: rest).drop 10) with
      | some g => some g
      | none => searchTagsBlock rest
    else searchTagsBlock rest

/-- `extract_tags`: group-1 tokens of the `***Tags:**` block when
pattern 1 matches, otherwise every `[[...]]` token in the document
(the source returns `[]` in the fallback when that list is empty,
which is the list itself). -/
def extract_tags (content : String) : List String :=
  match searchTagsBlock content.data with
  | some g => findAllBrackets g
  | none => findAllBrackets content.data

/-! ### Date-tag filtering: `is_date_tag`

The source tests the four anchored patterns `^\d{4}-\d{2}-\d{2}$`,
`^\d{4}-\d{2}$`, `^\d{2}-\d{2}-\d{4}$`, `^\d{2}-\d{2}-\d{2}$` with
`re.match`.  In Python, the `$` anchor also matches just before a
single newline at the very end of the string. -/

/-- Consume exactly `n` ASCII digits (`\d{n}`). -/
def digitRun : Nat → List Char → Option (List Char)
  | 0, cs => some cs
  | _ + 1, [] => none
  | n + 1, c :: cs => if c.isDigit then digitRun n cs else none

/-- Consume a hyphen-separated sequence of digit runs with the given
fixed widths; returns the unconsumed remainder. -/
def shapeCore : List Nat → List Char → Option (List Char)
  | [], cs => some cs
  | w :: ws, cs =>
    match digitRun w cs with
    | none => none
    | some cs2 =>
      match ws with
      | [] => some cs2
      | _ :: _ =>
        match cs2 with
        | [] => none
        | c :: cs3 => if c = '-' then shapeCore ws cs3 else none

/-- The Python `$` anchor at the end of a pattern: it matches at the
end of the string and also just before one final newline. -/
def endAnchor : List Char → Bool
  | [] => true
  | [c] => c == '\n'
  | _ => false

/-- The four recognized date widths, in the order the source tries
them. -/
def dateWidths : List (List Nat) := [[4, 2, 2], [4, 2], [2, 2, 4], [2, 2, 2]]

/-- `is_date_tag` from the source. -/
def is_date_tag (tag : String) : Bool :=
  dateWidths.any (fun ws => (shapeCore ws tag.data).elim false endAnchor)

/-- Modelled from the spec's words: a tag whose full text is exactly
one of the four date shapes — digits and hyphens only, fixed field
widths, nothing else.  Used to compare the code against the
specification text. -/
def dateShapeSpec (tag : String) : Bool :=
  dateWidths.any (fun ws => (shapeCore ws tag.data).elim false List.isEmpty)

/-- The amended reading of the spec's date filter: a date shape,
optionally followed by one trailing newline (the `$`-anchor
behaviour). -/
def dateShapeSpecNL (tag : String) : Bool :=
  dateShapeSpec tag ||
    ((tag.data.getLast? == some '\n') && dateShapeSpec ⟨tag.data.dropLast⟩)

/-! ### Best-match selection: `find_best_matching_folder`

The source filters out date tags, collects `(folder_info, "exact")`
pairs by iterating the tags in sequence order and the folder mapping in
its (insertion) iteration order, comparing `tag.lower()` with the
lower-cased folder-name key for exact equality only (partial matching
is deliberately absent), then does `matches.sort(key=depth,
reverse=True)` — a stable descending sort — and returns the path of
`matches[0]`.  Python's `list.sort` is stable, so it is embedded as a
stable insertion sort, which computes the same list. -/

/-- One entry of the folder index: canonical path and depth relative
to the indexed root. -/
structure FolderEntry where
  path : String
  depth : Nat
  deriving DecidableEq, Repr

/-- `non_date_tags = [tag for tag in tags if not is_date_tag(tag)]`. -/
def non_date_tags (tags : List String) : List String :=
  tags.filter (fun t => !is_date_tag t)

/-- The match-collection loops: tags outer (sequence order), folder
index inner (iteration order), exact case-insensitive equality only. -/
def collectMatches (tags : List String) (folders : List (String × FolderEntry)) :
    List (FolderEntry × String) :=
  (non_date_tags tags).flatMap (fun tag =>
    folders.filterMap (fun p =>
      if lowerStr tag = p.1 then some (p.2, "exact") else none))

/-- Stable insertion (descending by depth) of one match into an
already-sorted list: the new, later-discovered match goes after every
element of depth greater than or equal to its own. -/
def insertDesc (x : FolderEntry × String) :
    List (FolderEntry × String) → List (FolderEntry × String)
  | [] => [x]
  | y :: ys => if x.1.depth ≤ y.1.depth then y :: insertDesc x ys else x :: y :: ys

/-- `matches.sort(key=lambda x: x[0]['depth'], reverse=True)`: stable
descending sort by depth. -/
def sortMatchesDesc (ms : List (FolderEntry × String)) : List (FolderEntry × String) :=
  ms.foldl (fun acc x => insertDesc x acc) []

/-- `find_best_matching_folder` from the source: `None` when there are
no non-date tags or no matches, otherwise the path of the first
element of the sorted match list. -/
def find_best_matching_folder (tags : List String)
    (folders : List (String × FolderEntry)) : Option String :=
  if (non_date_tags tags).isEmpty then none
  else
    let ms := collectMatches tags folders
    if ms.isEmpty then none
    else (sortMatchesDesc ms).head?.map (fun m => m.1.path)

/-- Modelled from the spec's words: scan the candidates in discovery
order and keep the first one whose depth strictly exceeds the current
best — i.e. the candidate of maximal depth that was discovered first. -/
def specBest (ms : List (FolderEntry × String)) : Option (FolderEntry × String) :=
  ms.foldl (fun acc x =>
    match acc with
    | none => some x
    | some b => if x.1.depth > b.1.depth then some x else some b) none

/-! ### Folder index building: `get_existing_folders`

The source walks the root with `os.walk` (top-down, `onerror=None`, so
a directory whose `scandir` fails is silently skipped — nothing is
yielded for it and nothing below it is visited, but its own name was
already listed by its readable parent).  For each yielded
`(dirpath, dirnames, _)` it skips the whole yield when
`dirpath == source_dir` (when the global is defined) or when the
substring `'.git'` occurs anywhere in `dirpath`, and otherwise stores
`folders[dirname.lower()] = (dirpath/dirname, depth)` for each child —
a plain `dict` assignment, so a repeated lower-cased name overwrites
the earlier entry in place.  The depth is the number of path segments
of `relpath(folder_path, root_dir)`, i.e. one more than the structural
depth of `dirpath` below the root. -/

/-- A directory: its name, whether `os.scandir` can list it, and its
subdirectories in listing order.  Plain files are immaterial to the
index. -/
inductive DirTreeR where
  | mk (name : String) (readable : Bool) (subs : List DirTreeR)

def DirTreeR.name : DirTreeR → String
  | .mk n _ _ => n

mutual
/-- `os.walk` from a directory whose full path is `p` and whose depth
below the root is `d`: yields `(dirpath, depth, child names)` for the
directory and then, top-down, for each subdirectory in order.  An
unreadable directory yields nothing and is not descended into. -/
def walkAt (p : String) (d : Nat) : DirTreeR → List (String × Nat × List String)
  | .mk _ true subs => (p, d, subs.map DirTreeR.name) :: walkSubs p d subs
  | .mk _ false _ => []
/-- The walk continued over a list of subdirectories, in order. -/
def walkSubs (p : String) (d : Nat) : List DirTreeR → List (String × Nat × List String)
  | [] => []
  | t :: ts => walkAt (p ++ "/" ++ t.name) (d + 1) t ++ walkSubs p d ts
end

/-- Python's substring containment `needle in hay`. -/
def listContainsSeq (needle : List Char) : List Char → Bool
  | [] => needle.isEmpty
  | c :: rest => needle.isPrefixOf (c :: rest) || listContainsSeq needle rest

/-- `'.git' in dirpath` — a substring test on the whole path string. -/
def strContains (hay needle : String) : Bool := listContainsSeq needle.data hay.data

/-- The two `continue` guards of the walk loop: the yield for
`source_dir` itself (when the global is defined) and for any `dirpath`
containing `'.git'` as a substring is skipped. -/
def skipDir (srcDir : Option String) (dirpath : String) : Bool :=
  (match srcDir with
   | some s => dirpath == s
   | none => false) || strContains dirpath ".git"

/-- Python `dict` assignment `folders[k] = v` on an insertion-ordered
association list: an existing key keeps its position and gets the new
value; a new key goes to the end. -/
def insertFolder (m : List (String × FolderEntry)) (k : String) (v : FolderEntry) :
    List (String × FolderEntry) :=
  match m with
  | [] => [(k, v)]
  | (k0, v0) :: rest => if k0 = k then (k, v) :: rest else (k0, v0) :: insertFolder rest k v

/-- `get_existing_folders` from the source. -/
def get_existing_folders (srcDir : Option String) (rootPath : String) (t : DirTreeR) :
    List (String × FolderEntry) :=
  (walkAt rootPath 0 t).foldl (fun folders e =>
    if skipDir srcDir e.1 then folders
    else e.2.2.foldl (fun fs n =>
      insertFolder fs (lowerStr n) ⟨e.1 ++ "/" ++ n, e.2.1 + 1⟩) folders) []

/-- The flat stream of `(lower-cased name, entry)` assignments the
walk performs, in execution order. -/
def folderInsertions (srcDir : Option String) (rootPath : String) (t : DirTreeR) :
    List (String × FolderEntry) :=
  (walkAt rootPath 0 t).flatMap (fun e =>
    if skipDir srcDir e.1 then []
    else e.2.2.map (fun n => (lowerStr n, ⟨e.1 ++ "/" ++ n, e.2.1 + 1⟩)))

/-- The value of the last assignment with key `k`, if any. -/
def lastWrite (ps : List (String × FolderEntry)) (k : String) : Option FolderEntry :=
  ps.foldl (fun acc p => if p.1 = k then some p.2 else acc) none

/-- Association-list lookup: the value at the first occurrence of the
key. -/
def lookupKey (k : String) : List (String × FolderEntry) → Option FolderEntry
  | [] => none
  | p :: rest => if p.1 = k then some p.2 else lookupKey k rest

mutual
/-- Erase everything below unreadable directories: `os.walk` with
`onerror=None` neither yields nor descends into them, so the walk —
and with it the index — cannot depend on their contents. -/
def pruneUnreadable : DirTreeR → DirTreeR
  | .mk n true subs => .mk n true (pruneSubs subs)
  | .mk n false _ => .mk n false []
/-- `pruneUnreadable` mapped over a subdirectory list. -/
def pruneSubs : List DirTreeR → List DirTreeR
  | [] => []
  | t :: ts => pruneUnreadable t :: pruneSubs ts
end

/-! ### Relocation naming: the collision-suffix loop

On a name collision the source computes `base, ext =
os.path.splitext(basename)` and then searches `i = 1, 2, ...` for the
first `f"{base}_{i}{ext}"` that does not exist at the destination. -/

/-- Helper for `os.path.splitext`: returns the split at the last dot
that is preceded by at least one non-dot character, or `none` when no
such dot exists.  `seen` records whether a non-dot character has
occurred so far. -/
def splitextAux (seen : Bool) : List Char → Option (List Char × List Char)
  | [] => none
  | c :: rest =>
    match splitextAux (seen || c != '.') rest with
    | some (b, e) => some (c :: b, e)
    | none => if c = '.' ∧ seen = true then some ([], c :: rest) else none

/-- `os.path.splitext` on a bare file name (no directory part): a name
of leading dots only has no extension. -/
def splitext (name : String) : String × String :=
  match splitextAux false name.data with
  | some (b, e) => (⟨b⟩, ⟨e⟩)
  | none => (name, "")

/-- The collision candidate `f"{base}_{i}{ext}"`. -/
def candName (base ext : String) (i : Nat) : String :=
  base ++ "_" ++ Nat.repr i ++ ext

/-- The `while os.path.exists(...)` search: starting at `i`, increment
while the candidate name is taken.  The fuel only bounds the search;
`existing.length + 1` attempts always suffice because the candidate
names are pairwise distinct. -/
def destNameLoop (existing : List String) (base ext : String) : Nat → Nat → Nat
  | i, 0 => i
  | i, fuel + 1 =>
    if existing.contains (candName base ext i) then
      destNameLoop existing base ext (i + 1) fuel
    else i

/-- The destination file name chosen by the relocation step, given the
names already present in the destination folder. -/
def destName (existing : List String) (name : String) : String :=
  if existing.contains name then
    candName (splitext name).1 (splitext name).2
      (destNameLoop existing (splitext name).1 (splitext name).2 1 (existing.length + 1))
  else name

/-! Injectivity of the decimal numeral, needed to show the suffix
search always finds a free name within `existing.length + 1`
attempts. -/

/-- Value of a decimal digit string (digits as ASCII characters),
accumulator style. -/
def parseDigits (a : Nat) : List Char → Nat
  | [] => a
  | c :: cs => parseDigits (a * 10 + (c.toNat - 48)) cs

/-! ### The sorting run: `sort_markdown_files`

The source lists the source directory, keeps the names that
case-insensitively end in `.md` and are regular files, and processes
that captured list: extract tags (skip when empty), select a target
folder (skip when none), skip when the file's parent directory already
equals the target under `os.path.normpath`, otherwise compute a
collision-free destination name and move the file.  Moves are modelled
as always succeeding (the `shutil.move` `try/except` only matters for
OS-level failures, which the model does not represent). -/

/-- An entry of the source directory listing. -/
structure SrcEntry where
  name : String
  isFile : Bool
  content : String
  deriving DecidableEq, Repr

/-- The state one run touches: the source directory path, its listing
(in `os.listdir` order), and the file names present at each
destination folder path (the `os.path.exists` oracle). -/
structure FS where
  sourceDir : String
  entries : List SrcEntry
  folderFiles : List (String × List String)
  deriving DecidableEq, Repr

/-- `filename.lower().endswith('.md') and os.path.isfile(...)`. -/
def isMarkdownFile (e : SrcEntry) : Bool :=
  ".md".data.isSuffixOf (lowerStr e.name).data && e.isFile

/-- The captured list of documents of a run. -/
def markdownFiles (fs : FS) : List SrcEntry := fs.entries.filter isMarkdownFile

/-- Split a character list at every slash. -/
def splitSlashAux (cur : List Char) : List Char → List (List Char)
  | [] => [cur.reverse]
  | c :: rest =>
    if c = '/' then cur.reverse :: splitSlashAux [] rest
    else splitSlashAux (c :: cur) rest

/-- Join path segments with single slashes. -/
def joinSegs : List String → String
  | [] => ""
  | s :: rest => rest.foldl (fun a b => a ++ "/" ++ b) s

/-- `os.path.normpath` (POSIX flavour): drop empty and `.` segments,
resolve `..`, keep a single leading slash for absolute paths.  The
double-slash root special case is not distinguished. -/
def normpath (p : String) : String :=
  let isAbs := p.data.head? = some '/'
  let comps := (splitSlashAux [] p.data).map (fun l => (⟨l⟩ : String))
  let stack := comps.foldl (fun stack c =>
    if c = "" || c = "." then stack
    else if c = ".." then
      if isAbs then stack.tail
      else
        match stack with
        | [] => [".."]
        | s :: _ => if s = ".." then c :: stack else stack.tail
    else c :: stack) []
  let segs := stack.reverse
  if isAbs then "/" ++ joinSegs segs
  else if segs.isEmpty then "." else joinSegs segs

/-- The per-document routing decision: `none` when the document has no
tags or no matching folder, otherwise the selected target folder.  It
depends only on the document's content and the fixed folder index. -/
def decision (idx : List (String × FolderEntry)) (e : SrcEntry) : Option String :=
  let tags := extract_tags e.content
  if tags.isEmpty then none
  else find_best_matching_folder tags idx

/-- Names present at one folder path. -/
def lookupFiles (p : String) : List (String × List String) → List String
  | [] => []
  | q :: rest => if q.1 = p then q.2 else lookupFiles p rest

/-- Record one more name at a folder path. -/
def addFileAt (p n : String) : List (String × List String) → List (String × List String)
  | [] => [(p, [n])]
  | q :: rest => if q.1 = p then (q.1, n :: q.2) :: rest else q :: addFileAt p n rest

/-- Whether one captured document is left in place by the run: it has
no routing decision, or its parent directory (the source directory)
already equals the target under normalized comparison. -/
def stableB (idx : List (String × FolderEntry)) (srcDir : String) (e : SrcEntry) : Bool :=
  match decision idx e with
  | none => true
  | some t => normpath srcDir == normpath t

/-- Process one captured document: decide, skip when already at the
destination, otherwise rename on collision and move.  Returns the new
state and whether a move happened. -/
def processFile (idx : List (String × FolderEntry)) (fs : FS) (e : SrcEntry) : FS × Bool :=
  match decision idx e with
  | none => (fs, false)
  | some target =>
    if normpath fs.sourceDir = normpath target then (fs, false)
    else
      ({ fs with
          entries := fs.entries.eraseP (fun x => x.name == e.name),
          folderFiles :=
            addFileAt target (destName (lookupFiles target fs.folderFiles) e.name)
              fs.folderFiles },
        true)

/-- Process the captured document list in order, counting moves. -/
def runFiles (idx : List (String × FolderEntry)) : FS → List SrcEntry → FS × Nat
  | fs, [] => (fs, 0)
  | fs, e :: es =>
    let r := processFile idx fs e
    let r2 := runFiles idx r.1 es
    (r2.1, (if r.2 then 1 else 0) + r2.2)

/-- One full `sort_markdown_files` pass: capture the markdown list,
then process each document. -/
def sortRun (idx : List (String × FolderEntry)) (fs : FS) : FS × Nat :=
  runFiles idx fs (markdownFiles fs)

/-- `sort_markdown_files` with its folder index built from the root
tree; the `source_dir` global is defined (and equal to the source
directory) while the index is built. -/
def sort_markdown_files (rootPath : String) (tree : DirTreeR) (fs : FS) : FS × Nat :=
  sortRun (get_existing_folders (some fs.sourceDir) rootPath tree) fs

/-- The directory tree of the C6 counterexample: a `.git` directory
with contents, the source directory with contents, and a plain
folder. -/
def gitTree : DirTreeR :=
  .mk "vault" true [.mk ".git" true [.mk "objects" true []],
    .mk "inbox" true [.mk "drafts" true []], .mk "notes" true []]

/-- The directory tree of the C7 counterexample: a readable root over
an unreadable directory with a readable child. -/
def unreadableTree : DirTreeR := .mk "r" true [.mk "docs" false [.mk "inner" true []]]

/-- Sample index, tree and source state for the run witnesses. -/
def tree9 : DirTreeR := .mk "r" true [.mk "cs" true [], .mk "inbox" true []]

def idx9 : List (String × FolderEntry) := [("cs", ⟨"/r/cs", 1⟩)]

def fs9 : FS :=
  { sourceDir := "/r/inbox"
    entries := [⟨"a.md", true, "***Tags:** [[cs]]"⟩, ⟨"b.md", true, "no tags here"⟩,
      ⟨"data.txt", true, "[[cs]]"⟩]
    folderFiles := [("/r/cs", [])] }

/-!
Theorems: library lemmas about the embedding, followed by the
claim theorems C1 - C10 with their witnesses and counterexamples.
-/

theorem endAnchor_iff (r : List Char) : endAnchor r = true ↔ r = [] ∨ r = ['\n'] := by
  match r with
  | [] => simp [endAnchor]
  | [c] => simp [endAnchor]
  | c :: d :: rest => simp [endAnchor]

theorem digitRun_append (n : Nat) :
    ∀ a b r : List Char, digitRun n a = some r → digitRun n (a ++ b) = some (r ++ b) := by
  induction n with
  | zero =>
    intro a b r h
    simp [digitRun] at h
    simp [digitRun, h]
  | succ n ih =>
    intro a b r h
    cases a with
    | nil => simp [digitRun] at h
    | cons c cs =>
      rw [digitRun] at h
      split at h
      · rename_i hd
        simpa [digitRun, hd] using ih cs b r h
      · simp at h

theorem digitRun_split (n : Nat) :
    ∀ cs r : List Char, digitRun n cs = some r →
      ∃ pre, cs = pre ++ r ∧ digitRun n pre = some [] := by
  induction n with
  | zero =>
    intro cs r h
    simp [digitRun] at h
    exact ⟨[], by simp [h], by simp [digitRun]⟩
  | succ n ih =>
    intro cs r h
    cases cs with
    | nil => simp [digitRun] at h
    | cons c cs =>
      rw [digitRun] at h
      split at h
      · rename_i hd
        obtain ⟨pre, hpre, hrun⟩ := ih cs r h
        exact ⟨c :: pre, by simp [hpre], by simp [digitRun, hd, hrun]⟩
      · simp at h

theorem shapeCore_append :
    ∀ (ws : List Nat) (a b r : List Char),
      shapeCore ws a = some r → shapeCore ws (a ++ b) = some (r ++ b) := by
  intro ws
  induction ws with
  | nil =>
    intro a b r h
    simp [shapeCore] at h
    simp [shapeCore, h]
  | cons w ws ih =>
    intro a b r h
    rw [shapeCore] at h
    match hd : digitRun w a with
    | none => rw [hd] at h; simp at h
    | some cs2 =>
      rw [hd] at h
      have hd2 := digitRun_append w a b cs2 hd
      cases ws with
      | nil =>
        simp at h
        rw [shapeCore, hd2, ← h]
      | cons v vs =>
        simp only [] at h
        cases cs2 with
        | nil => simp at h
        | cons c cs3 =>
          simp only [] at h
          split at h
          · rename_i hc
            subst hc
            rw [shapeCore, hd2]
            simpa using ih cs3 b r h
          · simp at h

theorem shapeCore_split :
    ∀ (ws : List Nat) (cs r : List Char),
      shapeCore ws cs = some r → ∃ pre, cs = pre ++ r ∧ shapeCore ws pre = some [] := by
  intro ws
  induction ws with
  | nil =>
    intro cs r h
    simp [shapeCore] at h
    exact ⟨[], by simp [h], by simp [shapeCore]⟩
  | cons w ws ih =>
    intro cs r h
    rw [shapeCore] at h
    match hd : digitRun w cs with
    | none => rw [hd] at h; simp at h
    | some cs2 =>
      rw [hd] at h
      cases ws with
      | nil =>
        simp at h
        obtain ⟨pre, hpre, hrun⟩ := digitRun_split w cs cs2 hd
        exact ⟨pre, by simp [hpre, h], by simp [shapeCore, hrun]⟩
      | cons v vs =>
        simp only [] at h
        cases cs2 with
        | nil => simp at h
        | cons c cs3 =>
          simp only [] at h
          split at h
          · rename_i hc
            subst hc
            obtain ⟨pre3, hpre3, hrun3⟩ := ih cs3 r h
            obtain ⟨pre, hpre, hrun⟩ := digitRun_split w cs ('-' :: cs3) hd
            refine ⟨pre ++ '-' :: pre3, ?_, ?_⟩
            · simp [hpre, hpre3]
            · have h2 := digitRun_append w pre ('-' :: pre3) [] hrun
              simp at h2
              rw [shapeCore, h2]
              simpa using hrun3
          · simp at h

theorem perShape (ws : List Nat) (cs : List Char) :
    (shapeCore ws cs).elim false endAnchor = true ↔
      ((shapeCore ws cs).elim false List.isEmpty = true ∨
        (cs.getLast? = some '\n' ∧
          (shapeCore ws cs.dropLast).elim false List.isEmpty = true)) := by
  rcases List.eq_nil_or_concat cs with rfl | ⟨L, b, rfl⟩
  · match h : shapeCore ws [] with
    | none => simp
    | some r =>
      obtain ⟨pre, hpre, _⟩ := shapeCore_split ws [] r h
      have : r = [] := (List.append_eq_nil.mp hpre.symm).2
      subst this
      simp [endAnchor]
  · simp only [List.concat_eq_append]
    rw [List.getLast?_concat, List.dropLast_concat]
    match h : shapeCore ws (L ++ [b]) with
    | none =>
      simp only [Option.elim_none, Bool.false_eq_true, false_iff, false_or, not_and]
      intro hb hsome
      match h2 : shapeCore ws L with
      | none => rw [h2] at hsome; simp at hsome
      | some r2 =>
        rw [h2] at hsome
        simp only [Option.elim_some, List.isEmpty_iff] at hsome
        subst hsome
        have hap := shapeCore_append ws L [b] [] h2
        simp [h] at hap
    | some r =>
      simp only [Option.elim_some]
      rw [endAnchor_iff]
      constructor
      · rintro (rfl | rfl)
        · simp
        · right
          obtain ⟨pre, hpre, hrun⟩ := shapeCore_split ws (L ++ [b]) ['\n'] h
          have hb : b = '\n' := by
            have hgl := congrArg List.getLast? hpre
            rw [List.getLast?_concat, List.getLast?_concat] at hgl
            exact Option.some.inj hgl
          subst hb
          have hL : L = pre := List.append_cancel_right hpre
          subst hL
          simp [hrun]
      · rintro (hr | ⟨hb, hdrop⟩)
        · simp only [List.isEmpty_iff] at hr
          subst hr
          left; rfl
        · have hb2 : b = '\n' := Option.some.inj hb
          subst hb2
          match h2 : shapeCore ws L with
          | none => rw [h2] at hdrop; simp at hdrop
          | some r2 =>
            rw [h2] at hdrop
            simp only [Option.elim_some, List.isEmpty_iff] at hdrop
            subst hdrop
            have hap := shapeCore_append ws L ['\n'] [] h2
            simp [h] at hap
            right
            exact hap

/-- `is_date_tag` equals the spec's four date shapes, up to one
trailing newline admitted by the `$` anchor. -/
theorem is_date_tag_eq_specNL (t : String) : is_date_tag t = dateShapeSpecNL t := by
  have h1 := perShape [4, 2, 2] t.data
  have h2 := perShape [4, 2] t.data
  have h3 := perShape [2, 2, 4] t.data
  have h4 := perShape [2, 2, 2] t.data
  rw [Bool.eq_iff_iff]
  simp only [is_date_tag, dateShapeSpecNL, dateShapeSpec, dateWidths, List.any_cons,
    List.any_nil, Bool.or_false, Bool.or_eq_true, Bool.and_eq_true, beq_iff_eq]
  constructor
  · rintro (ha | hb | hc | hd)
    · rcases h1.mp ha with h | ⟨hnl, h⟩
      · exact Or.inl (Or.inl h)
      · exact Or.inr ⟨hnl, Or.inl h⟩
    · rcases h2.mp hb with h | ⟨hnl, h⟩
      · exact Or.inl (Or.inr (Or.inl h))
      · exact Or.inr ⟨hnl, Or.inr (Or.inl h)⟩
    · rcases h3.mp hc with h | ⟨hnl, h⟩
      · exact Or.inl (Or.inr (Or.inr (Or.inl h)))
      · exact Or.inr ⟨hnl, Or.inr (Or.inr (Or.inl h))⟩
    · rcases h4.mp hd with h | ⟨hnl, h⟩
      · exact Or.inl (Or.inr (Or.inr (Or.inr h)))
      · exact Or.inr ⟨hnl, Or.inr (Or.inr (Or.inr h))⟩
  · rintro ((h | h | h | h) | ⟨hnl, h | h | h | h⟩)
    · exact Or.inl (h1.mpr (Or.inl h))
    · exact Or.inr (Or.inl (h2.mpr (Or.inl h)))
    · exact Or.inr (Or.inr (Or.inl (h3.mpr (Or.inl h))))
    · exact Or.inr (Or.inr (Or.inr (h4.mpr (Or.inl h))))
    · exact Or.inl (h1.mpr (Or.inr ⟨hnl, h⟩))
    · exact Or.inr (Or.inl (h2.mpr (Or.inr ⟨hnl, h⟩)))
    · exact Or.inr (Or.inr (Or.inl (h3.mpr (Or.inr ⟨hnl, h⟩))))
    · exact Or.inr (Or.inr (Or.inr (h4.mpr (Or.inr ⟨hnl, h⟩))))

theorem insertDesc_head (x : FolderEntry × String) (l : List (FolderEntry × String)) :
    (insertDesc x l).head? =
      some (match l.head? with
            | none => x
            | some y => if x.1.depth > y.1.depth then x else y) := by
  cases l with
  | nil => rfl
  | cons y ys =>
    rw [insertDesc]
    split
    · rename_i hle
      simp only [List.head?_cons]
      rw [if_neg (by omega)]
    · rename_i hgt
      simp only [List.head?_cons]
      rw [if_pos (by omega)]

theorem sortMatchesDesc_head (ms : List (FolderEntry × String)) :
    ∀ acc, (ms.foldl (fun acc x => insertDesc x acc) acc).head? =
      ms.foldl (fun b x =>
        match b with
        | none => some x
        | some y => if x.1.depth > y.1.depth then some x else some y) acc.head? := by
  induction ms with
  | nil => intro acc; rfl
  | cons m ms ih =>
    intro acc
    rw [List.foldl_cons, List.foldl_cons, ih (insertDesc m acc), insertDesc_head]
    cases h : acc.head? with
    | none => rfl
    | some y => by_cases hc : m.1.depth > y.1.depth <;> simp [hc]

/-- The sorted list's first element is the first-discovered candidate
of maximal depth. -/
theorem find_best_eq_specBest (tags : List String)
    (folders : List (String × FolderEntry))
    (h : collectMatches tags folders ≠ []) :
    find_best_matching_folder tags folders =
      (specBest (collectMatches tags folders)).map (fun m => m.1.path) := by
  have hnd : (non_date_tags tags).isEmpty = false := by
    rcases hne : non_date_tags tags with _ | ⟨t, ts⟩
    · exfalso
      apply h
      simp [collectMatches, hne]
    · rfl
  rw [find_best_matching_folder, hnd]
  simp only [Bool.false_eq_true, if_false]
  rw [if_neg (by simpa [List.isEmpty_iff] using h)]
  rw [specBest, sortMatchesDesc, sortMatchesDesc_head]
  rfl

theorem foldl_entries_eq_flat (srcDir : Option String)
    (entries : List (String × Nat × List String)) :
    ∀ acc : List (String × FolderEntry),
      entries.foldl (fun folders e =>
        if skipDir srcDir e.1 then folders
        else e.2.2.foldl (fun fs n =>
          insertFolder fs (lowerStr n) ⟨e.1 ++ "/" ++ n, e.2.1 + 1⟩) folders) acc =
      (entries.flatMap (fun e =>
        if skipDir srcDir e.1 then []
        else e.2.2.map (fun n => (lowerStr n, ⟨e.1 ++ "/" ++ n, e.2.1 + 1⟩)))).foldl
        (fun m p => insertFolder m p.1 p.2) acc := by
  induction entries with
  | nil => intro acc; rfl
  | cons e es ih =>
    intro acc
    rw [List.foldl_cons, List.flatMap_cons, List.foldl_append, ih]
    congr 1
    split
    · rfl
    · rw [List.foldl_map]

theorem get_existing_folders_eq_fold (srcDir : Option String) (rootPath : String)
    (t : DirTreeR) :
    get_existing_folders srcDir rootPath t =
      (folderInsertions srcDir rootPath t).foldl (fun m p => insertFolder m p.1 p.2) [] := by
  rw [get_existing_folders, folderInsertions]
  exact foldl_entries_eq_flat srcDir (walkAt rootPath 0 t) []

theorem lookupKey_insertFolder (m : List (String × FolderEntry)) (k k0 : String)
    (v : FolderEntry) :
    lookupKey k0 (insertFolder m k v) = if k = k0 then some v else lookupKey k0 m := by
  induction m with
  | nil =>
    rw [insertFolder]
    by_cases h : k = k0 <;> simp [lookupKey, h]
  | cons p rest ih =>
    obtain ⟨k1, v1⟩ := p
    rw [insertFolder]
    split
    · rename_i h1
      subst h1
      by_cases h : k1 = k0 <;> simp [lookupKey, h]
    · rename_i h1
      by_cases h : k1 = k0
      · have hk : ¬(k = k0) := fun hc => h1 (h.trans hc.symm)
        simp [lookupKey, h, hk]
      · simp [lookupKey, h, ih]

theorem lookupKey_foldl_insertFolder (ps : List (String × FolderEntry)) :
    ∀ (m : List (String × FolderEntry)) (k : String),
      lookupKey k (ps.foldl (fun m p => insertFolder m p.1 p.2) m) =
        ps.foldl (fun acc p => if p.1 = k then some p.2 else acc) (lookupKey k m) := by
  induction ps with
  | nil => intro m k; rfl
  | cons p ps ih =>
    intro m k
    rw [List.foldl_cons, List.foldl_cons, ih, lookupKey_insertFolder]

theorem mem_keys_insertFolder (m : List (String × FolderEntry)) (k k1 : String)
    (v : FolderEntry) :
    k1 ∈ (insertFolder m k v).map Prod.fst ↔ k1 ∈ m.map Prod.fst ∨ k1 = k := by
  induction m with
  | nil => simp [insertFolder]
  | cons p rest ih =>
    obtain ⟨k0, v0⟩ := p
    rw [insertFolder]
    split
    · rename_i h0
      subst h0
      simp
      tauto
    · simp [ih]
      tauto

theorem nodupKeys_insertFolder (m : List (String × FolderEntry)) (k : String)
    (v : FolderEntry) (h : (m.map Prod.fst).Nodup) :
    ((insertFolder m k v).map Prod.fst).Nodup := by
  induction m with
  | nil => simp [insertFolder]
  | cons p rest ih =>
    obtain ⟨k0, v0⟩ := p
    simp only [List.map_cons, List.nodup_cons] at h
    rw [insertFolder]
    split
    · rename_i h0
      subst h0
      simp only [List.map_cons, List.nodup_cons]
      exact h
    · rename_i h0
      simp only [List.map_cons, List.nodup_cons]
      refine ⟨?_, ih h.2⟩
      rw [mem_keys_insertFolder]
      rintro (hc | hc)
      · exact h.1 hc
      · exact h0 hc

theorem nodupKeys_foldl_insertFolder (ps : List (String × FolderEntry)) :
    ∀ m : List (String × FolderEntry), (m.map Prod.fst).Nodup →
      ((ps.foldl (fun m p => insertFolder m p.1 p.2) m).map Prod.fst).Nodup := by
  induction ps with
  | nil => intro m h; exact h
  | cons p ps ih =>
    intro m h
    rw [List.foldl_cons]
    exact ih _ (nodupKeys_insertFolder m p.1 p.2 h)

theorem pruneUnreadable_name (t : DirTreeR) : (pruneUnreadable t).name = t.name := by
  match t with
  | .mk n true subs => rfl
  | .mk n false subs => rfl

theorem pruneSubs_map_name (ts : List DirTreeR) :
    (pruneSubs ts).map DirTreeR.name = ts.map DirTreeR.name := by
  induction ts with
  | nil => rfl
  | cons t ts ih => rw [pruneSubs, List.map_cons, List.map_cons, pruneUnreadable_name, ih]

mutual
theorem walkAt_prune (p : String) (d : Nat) (t : DirTreeR) :
    walkAt p d (pruneUnreadable t) = walkAt p d t := by
  match t with
  | .mk n true subs =>
    rw [pruneUnreadable, walkAt, walkAt, pruneSubs_map_name, walkSubs_prune]
  | .mk n false subs => rw [pruneUnreadable, walkAt, walkAt]
theorem walkSubs_prune (p : String) (d : Nat) (ts : List DirTreeR) :
    walkSubs p d (pruneSubs ts) = walkSubs p d ts := by
  match ts with
  | [] => rfl
  | t :: ts =>
    rw [pruneSubs, walkSubs, walkSubs, pruneUnreadable_name, walkAt_prune, walkSubs_prune]
end

theorem lastWrite_isSome_iff (ps : List (String × FolderEntry)) (k : String) :
    (lastWrite ps k).isSome = true ↔ ∃ v, (k, v) ∈ ps := by
  rw [lastWrite]
  suffices h : ∀ acc : Option FolderEntry,
      (ps.foldl (fun acc p => if p.1 = k then some p.2 else acc) acc).isSome = true ↔
        acc.isSome = true ∨ ∃ v, (k, v) ∈ ps by
    rw [h none]
    simp
  induction ps with
  | nil => intro acc; simp
  | cons p ps ih =>
    intro acc
    rw [List.foldl_cons, ih]
    by_cases h : p.1 = k
    · simp only [if_pos h, Option.isSome_some]
      constructor
      · rintro (_ | h2)
        · exact Or.inr ⟨p.2, by rw [← h]; exact List.mem_cons_self p ps⟩
        · obtain ⟨v, hv⟩ := h2
          exact Or.inr ⟨v, List.mem_cons_of_mem p hv⟩
      · intro _
        exact Or.inl trivial
    · rw [if_neg h]
      constructor
      · rintro (h2 | ⟨v, hv⟩)
        · exact Or.inl h2
        · exact Or.inr ⟨v, List.mem_cons_of_mem p hv⟩
      · rintro (h2 | ⟨v, hv⟩)
        · exact Or.inl h2
        · rcases List.mem_cons.mp hv with heq | hmem
          · exact absurd (congrArg Prod.fst heq.symm) h
          · exact Or.inr ⟨v, hmem⟩

theorem mem_folderInsertions (srcDir : Option String) (rootPath : String) (t : DirTreeR)
    (k : String) (v : FolderEntry) :
    (k, v) ∈ folderInsertions srcDir rootPath t ↔
      ∃ e ∈ walkAt rootPath 0 t, skipDir srcDir e.1 = false ∧
        ∃ n ∈ e.2.2, lowerStr n = k ∧ FolderEntry.mk (e.1 ++ "/" ++ n) (e.2.1 + 1) = v := by
  rw [folderInsertions]
  simp only [List.mem_flatMap]
  constructor
  · rintro ⟨e, he, hmem⟩
    by_cases hs : skipDir srcDir e.1
    · rw [if_pos hs] at hmem
      simp at hmem
    · rw [if_neg hs] at hmem
      simp only [List.mem_map, Prod.mk.injEq] at hmem
      obtain ⟨n, hn, hk, hv⟩ := hmem
      exact ⟨e, he, Bool.eq_false_iff.mpr hs, n, hn, hk, hv⟩
  · rintro ⟨e, he, hs, n, hn, hk, hv⟩
    refine ⟨e, he, ?_⟩
    rw [if_neg (by rw [hs]; exact Bool.false_ne_true)]
    simp only [List.mem_map, Prod.mk.injEq]
    exact ⟨n, hn, hk, hv⟩

/-- Which keys the index ends up containing: exactly the lower-cased
names of children of non-skipped walked directories. -/
theorem index_key_characterization (srcDir : Option String) (rootPath : String)
    (t : DirTreeR) (k : String) :
    (lookupKey k (get_existing_folders srcDir rootPath t)).isSome = true ↔
      ∃ e ∈ walkAt rootPath 0 t, skipDir srcDir e.1 = false ∧
        ∃ n ∈ e.2.2, lowerStr n = k := by
  rw [get_existing_folders_eq_fold, lookupKey_foldl_insertFolder]
  have hk : lookupKey k ([] : List (String × FolderEntry)) = none := rfl
  rw [hk]
  rw [show (folderInsertions srcDir rootPath t).foldl
        (fun acc p => if p.1 = k then some p.2 else acc) none =
      lastWrite (folderInsertions srcDir rootPath t) k from rfl]
  rw [lastWrite_isSome_iff]
  constructor
  · rintro ⟨v, hv⟩
    obtain ⟨e, he, hs, n, hn, hk2, _⟩ := (mem_folderInsertions _ _ _ _ _).mp hv
    exact ⟨e, he, hs, n, hn, hk2⟩
  · rintro ⟨e, he, hs, n, hn, hk2⟩
    exact ⟨⟨e.1 ++ "/" ++ n, e.2.1 + 1⟩,
      (mem_folderInsertions _ _ _ _ _).mpr ⟨e, he, hs, n, hn, hk2, rfl⟩⟩

theorem parseDigits_append (l1 l2 : List Char) :
    ∀ a, parseDigits a (l1 ++ l2) = parseDigits (parseDigits a l1) l2 := by
  induction l1 with
  | nil => intro a; rfl
  | cons c cs ih =>
    intro a
    rw [List.cons_append]
    exact ih (a * 10 + (c.toNat - 48))

theorem digitChar_val (m : Nat) (h : m < 10) : (Nat.digitChar m).toNat - 48 = m := by
  interval_cases m <;> decide

theorem toDigitsCore_acc (n : Nat) :
    ∀ f acc, n < f → Nat.toDigitsCore 10 f n acc = Nat.toDigits 10 n ++ acc := by
  induction n using Nat.strong_induction_on with
  | _ n ih =>
    intro f acc hf
    match f with
    | 0 => omega
    | f + 1 =>
      have hpos : n / 10 = 0 ∨ 0 < n := by
        rcases Nat.eq_zero_or_pos n with rfl | h
        · exact Or.inl rfl
        · exact Or.inr h
      by_cases h0 : n / 10 = 0
      · simp only [Nat.toDigitsCore, if_pos h0, Nat.toDigits]
        rfl
      · have hn0 : 0 < n := Nat.pos_of_ne_zero (fun hz => h0 (by simp [hz]))
        have hdiv : n / 10 < n := Nat.div_lt_self hn0 (by omega)
        simp only [Nat.toDigitsCore, if_neg h0, Nat.toDigits]
        rw [ih (n / 10) hdiv f (Nat.digitChar (n % 10) :: acc) (by omega),
          ih (n / 10) hdiv n [Nat.digitChar (n % 10)] (by omega),
          List.append_assoc]
        rfl

theorem parse_toDigits (n : Nat) : parseDigits 0 (Nat.toDigits 10 n) = n := by
  induction n using Nat.strong_induction_on with
  | _ n ih =>
    by_cases h0 : n / 10 = 0
    · have hn : n < 10 := by
        rcases Nat.lt_or_ge n 10 with h | h
        · exact h
        · exact absurd h0 (by
            have : 1 ≤ n / 10 := (Nat.one_le_div_iff (by omega)).mpr h
            omega)
      have hlist : Nat.toDigits 10 n = [Nat.digitChar (n % 10)] := by
        rw [Nat.toDigits]
        simp only [Nat.toDigitsCore, if_pos h0]
      rw [hlist]
      have hpd : parseDigits 0 [Nat.digitChar (n % 10)] =
          0 * 10 + ((Nat.digitChar (n % 10)).toNat - 48) := rfl
      rw [hpd, digitChar_val (n % 10) (Nat.mod_lt n (by omega))]
      have := Nat.mod_eq_of_lt hn
      omega
    · have hn0 : 0 < n := Nat.pos_of_ne_zero (fun hz => h0 (by simp [hz]))
      have hdiv : n / 10 < n := Nat.div_lt_self hn0 (by omega)
      have h1 : Nat.toDigits 10 n =
          Nat.toDigits 10 (n / 10) ++ [Nat.digitChar (n % 10)] := by
        rw [Nat.toDigits]
        simp only [Nat.toDigitsCore, if_neg h0]
        exact toDigitsCore_acc (n / 10) n [Nat.digitChar (n % 10)] (by omega)
      rw [h1, parseDigits_append, ih (n / 10) hdiv]
      have hpd : parseDigits (n / 10) [Nat.digitChar (n % 10)] =
          n / 10 * 10 + ((Nat.digitChar (n % 10)).toNat - 48) := rfl
      rw [hpd, digitChar_val (n % 10) (Nat.mod_lt n (by omega))]
      have := Nat.div_add_mod n 10
      omega

theorem natRepr_inj {n m : Nat} (h : Nat.repr n = Nat.repr m) : n = m := by
  have hd : Nat.toDigits 10 n = Nat.toDigits 10 m := by
    have h2 := congrArg String.data h
    simpa [Nat.repr, List.asString] using h2
  calc n = parseDigits 0 (Nat.toDigits 10 n) := (parse_toDigits n).symm
  _ = parseDigits 0 (Nat.toDigits 10 m) := by rw [hd]
  _ = m := parse_toDigits m

theorem candName_inj (base ext : String) {i j : Nat}
    (h : candName base ext i = candName base ext j) : i = j := by
  apply natRepr_inj
  have h2 := congrArg String.data h
  simp only [candName] at h2
  have hsplit : ∀ s t : String, (s ++ t).data = s.data ++ t.data := fun s t => rfl
  rw [hsplit, hsplit, hsplit, hsplit, hsplit, hsplit] at h2
  have h3 := List.append_cancel_left (List.append_cancel_right h2)
  exact congrArg String.mk h3

theorem exists_free_cand (existing : List String) (base ext : String) :
    ∃ j, 1 ≤ j ∧ j ≤ existing.length + 1 ∧ candName base ext j ∉ existing := by
  by_contra hall
  push_neg at hall
  have hsub : ((List.range (existing.length + 1)).map (fun k => candName base ext (k + 1)))
      ⊆ existing := by
    intro x hx
    simp only [List.mem_map, List.mem_range] at hx
    obtain ⟨k, hk, rfl⟩ := hx
    exact hall (k + 1) (by omega) (by omega)
  have hnd : ((List.range (existing.length + 1)).map
      (fun k => candName base ext (k + 1))).Nodup := by
    refine List.Nodup.map ?_ (List.nodup_range _)
    intro x y hxy
    have := candName_inj base ext hxy
    omega
  have hlen := (List.subperm_of_subset hnd hsub).length_le
  simp only [List.length_map, List.length_range] at hlen
  omega

theorem destNameLoop_ge (existing : List String) (base ext : String) :
    ∀ fuel i, i ≤ destNameLoop existing base ext i fuel := by
  intro fuel
  induction fuel with
  | zero => intro i; exact Nat.le_refl i
  | succ fuel ih =>
    intro i
    rw [destNameLoop]
    split
    · exact Nat.le_trans (by omega) (ih (i + 1))
    · exact Nat.le_refl i

theorem destNameLoop_below_taken (existing : List String) (base ext : String) :
    ∀ fuel i m, i ≤ m → m < destNameLoop existing base ext i fuel →
      candName base ext m ∈ existing := by
  intro fuel
  induction fuel with
  | zero => intro i m him hm; rw [destNameLoop] at hm; omega
  | succ fuel ih =>
    intro i m him hm
    rw [destNameLoop] at hm
    split at hm
    · rename_i htaken
      rcases Nat.eq_or_lt_of_le him with rfl | hlt
      · exact List.elem_iff.mp htaken
      · exact ih (i + 1) m hlt hm
    · omega

theorem destNameLoop_free (existing : List String) (base ext : String) :
    ∀ fuel i j, i ≤ j → j < i + fuel → candName base ext j ∉ existing →
      candName base ext (destNameLoop existing base ext i fuel) ∉ existing := by
  intro fuel
  induction fuel with
  | zero => intro i j hij hj hfree; omega
  | succ fuel ih =>
    intro i j hij hj hfree
    rw [destNameLoop]
    split
    · rename_i htaken
      have hne : i ≠ j := by
        rintro rfl
        exact hfree (List.elem_iff.mp htaken)
      exact ih (i + 1) j (by omega) (by omega) hfree
    · rename_i hfree2
      intro hmem
      exact hfree2 (List.elem_iff.mpr hmem)

theorem processFile_sourceDir (idx : List (String × FolderEntry)) (fs : FS) (e : SrcEntry) :
    (processFile idx fs e).1.sourceDir = fs.sourceDir := by
  cases h : decision idx e with
  | none => simp [processFile, h]
  | some t =>
    by_cases ht : normpath fs.sourceDir = normpath t <;> simp [processFile, h, ht]

theorem processFile_stable (idx : List (String × FolderEntry)) (fs : FS) (e : SrcEntry)
    (h : stableB idx fs.sourceDir e = true) : processFile idx fs e = (fs, false) := by
  rw [stableB] at h
  cases hd : decision idx e with
  | none => simp [processFile, hd]
  | some t =>
    rw [hd] at h
    simp only [beq_iff_eq] at h
    simp [processFile, hd, h]

theorem processFile_unstable (idx : List (String × FolderEntry)) (fs : FS) (e : SrcEntry)
    (h : stableB idx fs.sourceDir e = false) :
    (processFile idx fs e).1.entries = fs.entries.eraseP (fun x => x.name == e.name) ∧
      (processFile idx fs e).2 = true := by
  rw [stableB] at h
  cases hd : decision idx e with
  | none => rw [hd] at h; simp at h
  | some t =>
    rw [hd] at h
    simp only [beq_eq_false_iff_ne, ne_eq] at h
    simp [processFile, hd, h]

theorem runFiles_sourceDir (idx : List (String × FolderEntry)) :
    ∀ (es : List SrcEntry) (fs : FS), (runFiles idx fs es).1.sourceDir = fs.sourceDir := by
  intro es
  induction es with
  | nil => intro fs; rfl
  | cons e es ih =>
    intro fs
    show (runFiles idx (processFile idx fs e).1 es).1.sourceDir = fs.sourceDir
    rw [ih, processFile_sourceDir]

theorem runFiles_stable_zero (idx : List (String × FolderEntry)) :
    ∀ (es : List SrcEntry) (fs : FS),
      (∀ e ∈ es, stableB idx fs.sourceDir e = true) → runFiles idx fs es = (fs, 0) := by
  intro es
  induction es with
  | nil => intro fs _; rfl
  | cons e es ih =>
    intro fs h
    have h1 := processFile_stable idx fs e (h e (List.mem_cons_self e es))
    simp only [runFiles, h1]
    rw [ih fs (fun x hx => h x (List.mem_cons_of_mem e hx))]
    rfl

theorem mem_eraseP_of_name_ne (nm : String) :
    ∀ (l : List SrcEntry) (x : SrcEntry), x ∈ l → x.name ≠ nm →
      x ∈ l.eraseP (fun y => y.name == nm) := by
  intro l
  induction l with
  | nil => intro x hx; intro _; simp at hx
  | cons y rest ih =>
    intro x hx hne
    cases hyc : (y.name == nm) with
    | true =>
      simp only [List.eraseP_cons, hyc, cond_true]
      rcases List.mem_cons.mp hx with rfl | hmem
      · exact absurd (beq_iff_eq.mp hyc) hne
      · exact hmem
    | false =>
      simp only [List.eraseP_cons, hyc, cond_false]
      rcases List.mem_cons.mp hx with rfl | hmem
      · exact List.mem_cons_self x _
      · exact List.mem_cons_of_mem y (ih x hmem hne)

theorem name_ne_of_mem_eraseP (nm : String) :
    ∀ l : List SrcEntry, (l.map SrcEntry.name).Nodup →
      ∀ x ∈ l.eraseP (fun y => y.name == nm), x.name ≠ nm := by
  intro l
  induction l with
  | nil => intro _ x hx; simp at hx
  | cons y rest ih =>
    intro hnd x hx
    simp only [List.map_cons, List.nodup_cons] at hnd
    cases hyc : (y.name == nm) with
    | true =>
      rw [List.eraseP_cons, hyc, cond_true] at hx
      intro hc
      apply hnd.1
      rw [beq_iff_eq] at hyc
      rw [hyc, ← hc]
      exact List.mem_map_of_mem SrcEntry.name hx
    | false =>
      rw [List.eraseP_cons, hyc, cond_false] at hx
      rcases List.mem_cons.mp hx with rfl | hmem
      · exact fun hc => (by simp [hc] at hyc : False)
      · exact ih hnd.2 x hmem

/-- The run invariant: processing a captured list of markdown
documents (a subset of the listing, pairwise distinct names) leaves a
listing with pairwise distinct names in which every markdown document
is stable — it would not be moved — and from which no non-markdown
entry has been removed. -/
theorem runFiles_master (idx : List (String × FolderEntry)) :
    ∀ (es : List SrcEntry) (fs : FS),
      (fs.entries.map SrcEntry.name).Nodup →
      (es.map SrcEntry.name).Nodup →
      es ⊆ fs.entries →
      (∀ e ∈ es, isMarkdownFile e = true) →
      (∀ x ∈ fs.entries, isMarkdownFile x = true →
        stableB idx fs.sourceDir x = true ∨ x ∈ es) →
      ((runFiles idx fs es).1.entries.map SrcEntry.name).Nodup ∧
      (∀ x ∈ (runFiles idx fs es).1.entries,
        isMarkdownFile x = true → stableB idx fs.sourceDir x = true) ∧
      (∀ x ∈ fs.entries, isMarkdownFile x = false →
        x ∈ (runFiles idx fs es).1.entries) := by
  intro es
  induction es with
  | nil =>
    intro fs h1 _ _ _ h5
    refine ⟨h1, ?_, ?_⟩
    · intro x hx hmd
      rcases h5 x hx hmd with hs | hmem
      · exact hs
      · simp at hmem
    · intro x hx _
      exact hx
  | cons e es ih =>
    intro fs h1 h2 h3 h4 h5
    have h2c : e.name ∉ es.map SrcEntry.name ∧ (es.map SrcEntry.name).Nodup := by
      rw [List.map_cons, List.nodup_cons] at h2
      exact h2
    cases hst : stableB idx fs.sourceDir e with
    | true =>
      have hpf := processFile_stable idx fs e hst
      have hred : (runFiles idx fs (e :: es)).1 = (runFiles idx fs es).1 := by
        show (runFiles idx (processFile idx fs e).1 es).1 = (runFiles idx fs es).1
        rw [hpf]
      rw [hred]
      refine ih fs h1 h2c.2 (fun x hx => h3 (List.mem_cons_of_mem e hx))
        (fun x hx => h4 x (List.mem_cons_of_mem e hx)) ?_
      intro x hx hmd
      rcases h5 x hx hmd with hs | hmem
      · exact Or.inl hs
      · rcases List.mem_cons.mp hmem with rfl | hm2
        · exact Or.inl hst
        · exact Or.inr hm2
    | false =>
      have hpf := processFile_unstable idx fs e hst
      have hsrc : (processFile idx fs e).1.sourceDir = fs.sourceDir :=
        processFile_sourceDir idx fs e
      have hred : (runFiles idx fs (e :: es)).1 =
          (runFiles idx (processFile idx fs e).1 es).1 := rfl
      rw [hred]
      have hnames : ((processFile idx fs e).1.entries.map SrcEntry.name).Nodup := by
        rw [hpf.1]
        exact h1.sublist ((List.eraseP_sublist _).map _)
      have h3' : es ⊆ (processFile idx fs e).1.entries := by
        intro x hx
        have hxe : x.name ≠ e.name := fun hc =>
          h2c.1 (hc ▸ List.mem_map_of_mem SrcEntry.name hx)
        rw [hpf.1]
        exact mem_eraseP_of_name_ne e.name fs.entries x
          (h3 (List.mem_cons_of_mem e hx)) hxe
      have h5' : ∀ x ∈ (processFile idx fs e).1.entries, isMarkdownFile x = true →
          stableB idx (processFile idx fs e).1.sourceDir x = true ∨ x ∈ es := by
        intro x hx hmd
        have hxname : x.name ≠ e.name := by
          rw [hpf.1] at hx
          exact name_ne_of_mem_eraseP e.name fs.entries h1 x hx
        have hxfs : x ∈ fs.entries := by
          rw [hpf.1] at hx
          exact List.mem_of_mem_eraseP hx
        rcases h5 x hxfs hmd with hs | hmem
        · rw [hsrc]
          exact Or.inl hs
        · rcases List.mem_cons.mp hmem with rfl | hm2
          · exact absurd rfl hxname
          · exact Or.inr hm2
      obtain ⟨c1, c2, c3⟩ := ih (processFile idx fs e).1 hnames h2c.2 h3'
        (fun x hx => h4 x (List.mem_cons_of_mem e hx)) h5'
      refine ⟨c1, ?_, ?_⟩
      · intro x hx hmd
        have := c2 x hx hmd
        rwa [hsrc] at this
      · intro x hx hmd
        have hxe : x.name ≠ e.name := by
          intro hc
          have hxeq : x = e :=
            List.inj_on_of_nodup_map h1 hx (h3 (List.mem_cons_self e es)) hc
          rw [hxeq, h4 e (List.mem_cons_self e es)] at hmd
          exact absurd hmd (by simp)
        have hx' : x ∈ (processFile idx fs e).1.entries := by
          rw [hpf.1]
          exact mem_eraseP_of_name_ne e.name fs.entries x hx hxe
        exact c3 x hx' hmd

theorem foldBest_analysis :
    ∀ (ms : List (FolderEntry × String)) (b0 b : FolderEntry × String),
      ms.foldl (fun acc x =>
        match acc with
        | none => some x
        | some y => if x.1.depth > y.1.depth then some x else some y) (some b0) = some b →
      (b = b0 ∧ ∀ m ∈ ms, m.1.depth ≤ b0.1.depth) ∨
      (∃ l1 l2, ms = l1 ++ b :: l2 ∧ b0.1.depth < b.1.depth ∧
        (∀ m ∈ l1, m.1.depth < b.1.depth) ∧ (∀ m ∈ l2, m.1.depth ≤ b.1.depth)) := by
  intro ms
  induction ms with
  | nil =>
    intro b0 b h
    simp only [List.foldl_nil, Option.some.injEq] at h
    exact Or.inl ⟨h.symm, by simp⟩
  | cons m ms ih =>
    intro b0 b h
    rw [List.foldl_cons] at h
    by_cases hc : m.1.depth > b0.1.depth
    · simp only [if_pos hc] at h
      rcases ih m b h with ⟨rfl, hall⟩ | ⟨l1, l2, rfl, hlt, hl1, hl2⟩
      · refine Or.inr ⟨[], ms, rfl, hc, by simp, hall⟩
      · refine Or.inr ⟨m :: l1, l2, rfl, by omega, ?_, hl2⟩
        intro x hx
        rcases List.mem_cons.mp hx with rfl | hm
        · omega
        · exact hl1 x hm
    · simp only [if_neg hc] at h
      rcases ih b0 b h with ⟨rfl, hall⟩ | ⟨l1, l2, rfl, hlt, hl1, hl2⟩
      · refine Or.inl ⟨rfl, ?_⟩
        intro x hx
        rcases List.mem_cons.mp hx with rfl | hm
        · omega
        · exact hall x hm
      · refine Or.inr ⟨m :: l1, l2, rfl, hlt, ?_, hl2⟩
        intro x hx
        rcases List.mem_cons.mp hx with rfl | hm
        · omega
        · exact hl1 x hm

theorem foldBest_isSome :
    ∀ (ms : List (FolderEntry × String)) (b0 : FolderEntry × String),
      ∃ b, ms.foldl (fun acc x =>
        match acc with
        | none => some x
        | some y => if x.1.depth > y.1.depth then some x else some y) (some b0) = some b := by
  intro ms
  induction ms with
  | nil => intro b0; exact ⟨b0, rfl⟩
  | cons m ms ih =>
    intro b0
    rw [List.foldl_cons]
    by_cases hc : m.1.depth > b0.1.depth
    · simp only [if_pos hc]
      exact ih m
    · simp only [if_neg hc]
      exact ih b0

/-- The spec-side selector returns the first-discovered candidate of
maximal depth. -/
theorem specBest_first_max (ms : List (FolderEntry × String)) (b : FolderEntry × String)
    (h : specBest ms = some b) :
    b ∈ ms ∧ (∀ m ∈ ms, m.1.depth ≤ b.1.depth) ∧
      ∃ l1 l2, ms = l1 ++ b :: l2 ∧ ∀ m ∈ l1, m.1.depth < b.1.depth := by
  match ms with
  | [] => simp [specBest] at h
  | m0 :: rest =>
    have h2 : rest.foldl (fun acc x =>
        match acc with
        | none => some x
        | some y => if x.1.depth > y.1.depth then some x else some y) (some m0) = some b := h
    rcases foldBest_analysis rest m0 b h2 with ⟨rfl, hall⟩ | ⟨l1, l2, rfl, hlt, hl1, hl2⟩
    · refine ⟨List.mem_cons_self b rest, ?_, [], rest, rfl, by simp⟩
      intro x hx
      rcases List.mem_cons.mp hx with rfl | hm
      · omega
      · exact hall x hm
    · refine ⟨List.mem_cons_of_mem m0 (by simp), ?_, m0 :: l1, l2, rfl, ?_⟩
      · intro x hx
        rcases List.mem_cons.mp hx with rfl | hm
        · omega
        · rcases List.mem_append.mp hm with hm1 | hm2
          · exact Nat.le_of_lt (hl1 x hm1)
          · rcases List.mem_cons.mp hm2 with rfl | hm3
            · omega
            · exact hl2 x hm3
      · intro x hx
        rcases List.mem_cons.mp hx with rfl | hm
        · omega
        · exact hl1 x hm

theorem specBest_isSome (ms : List (FolderEntry × String)) (h : ms ≠ []) :
    ∃ b, specBest ms = some b := by
  match ms with
  | [] => exact absurd rfl h
  | m0 :: rest => exact foldBest_isSome rest m0

/-- Running the sorter twice with the same index: the second pass moves
nothing. -/
theorem sortRun_twice_zero (idx : List (String × FolderEntry)) (fs : FS)
    (hnd : (fs.entries.map SrcEntry.name).Nodup) :
    (sortRun idx (sortRun idx fs).1).2 = 0 := by
  have hsub : markdownFiles fs ⊆ fs.entries := List.filter_subset' fs.entries
  have hmdnodup : ((markdownFiles fs).map SrcEntry.name).Nodup :=
    hnd.sublist ((List.filter_sublist fs.entries).map SrcEntry.name)
  have hmd : ∀ e ∈ markdownFiles fs, isMarkdownFile e = true := fun e he =>
    List.of_mem_filter he
  have h5 : ∀ x ∈ fs.entries, isMarkdownFile x = true →
      stableB idx fs.sourceDir x = true ∨ x ∈ markdownFiles fs := fun x hx hmdx =>
    Or.inr (List.mem_filter.mpr ⟨hx, hmdx⟩)
  obtain ⟨_, c2, _⟩ := runFiles_master idx (markdownFiles fs) fs hnd hmdnodup hsub hmd h5
  have hsrc : (sortRun idx fs).1.sourceDir = fs.sourceDir :=
    runFiles_sourceDir idx (markdownFiles fs) fs
  have hall : ∀ e ∈ markdownFiles (sortRun idx fs).1,
      stableB idx (sortRun idx fs).1.sourceDir e = true := by
    intro e he
    have he1 : e ∈ (sortRun idx fs).1.entries := List.filter_subset' _ he
    have hmde : isMarkdownFile e = true := List.of_mem_filter he
    rw [hsrc]
    exact c2 e he1 hmde
  show (runFiles idx (sortRun idx fs).1 (markdownFiles (sortRun idx fs).1)).2 = 0
  rw [runFiles_stable_zero idx (markdownFiles (sortRun idx fs).1) (sortRun idx fs).1 hall]

/-- Claim C1: when at least one exact (case-insensitive) tag-to-folder
match exists, `find_best_matching_folder` returns the path of a
candidate of maximal depth, and among the candidates of maximal depth
the one discovered first in iteration order (tags in sequence order,
folders in index iteration order): every candidate listed before it is
strictly shallower. -/
theorem C1_best_match (tags : List String) (folders : List (String × FolderEntry))
    (h : collectMatches tags folders ≠ []) :
    ∃ b, specBest (collectMatches tags folders) = some b ∧
      find_best_matching_folder tags folders = some b.1.path ∧
      b ∈ collectMatches tags folders ∧
      (∀ m ∈ collectMatches tags folders, m.1.depth ≤ b.1.depth) ∧
      ∃ l1 l2, collectMatches tags folders = l1 ++ b :: l2 ∧
        ∀ m ∈ l1, m.1.depth < b.1.depth := by
  obtain ⟨b, hb⟩ := specBest_isSome _ h
  obtain ⟨hmem, hmax, l1, l2, hsplit, hfirst⟩ := specBest_first_max _ b hb
  refine ⟨b, hb, ?_, hmem, hmax, l1, l2, hsplit, hfirst⟩
  rw [find_best_eq_specBest tags folders h, hb]
  rfl

theorem C1_best_match_witness :
    ∃ b, specBest (collectMatches ["a", "b"]
        [("a", ⟨"/r/a", 2⟩), ("b", ⟨"/r/x/b", 2⟩)]) = some b ∧
      find_best_matching_folder ["a", "b"]
        [("a", ⟨"/r/a", 2⟩), ("b", ⟨"/r/x/b", 2⟩)] = some b.1.path ∧
      b ∈ collectMatches ["a", "b"] [("a", ⟨"/r/a", 2⟩), ("b", ⟨"/r/x/b", 2⟩)] ∧
      (∀ m ∈ collectMatches ["a", "b"] [("a", ⟨"/r/a", 2⟩), ("b", ⟨"/r/x/b", 2⟩)],
        m.1.depth ≤ b.1.depth) ∧
      ∃ l1 l2, collectMatches ["a", "b"] [("a", ⟨"/r/a", 2⟩), ("b", ⟨"/r/x/b", 2⟩)] =
          l1 ++ b :: l2 ∧
        ∀ m ∈ l1, m.1.depth < b.1.depth :=
  C1_best_match ["a", "b"] [("a", ⟨"/r/a", 2⟩), ("b", ⟨"/r/x/b", 2⟩)] (by decide)

/-- Claim C2: a match candidate arises only from exact
case-insensitive full-string equality between a (non-date) tag and a
folder-index key — never from substring or partial matching — so the
tag "os" against an index holding only "costume" selects no
destination. -/
theorem C2_exact_match_only :
    (∀ (tags : List String) (folders : List (String × FolderEntry))
        (entry : FolderEntry) (mt : String),
        (entry, mt) ∈ collectMatches tags folders →
          mt = "exact" ∧ ∃ t ∈ non_date_tags tags, ∃ p ∈ folders,
            lowerStr t = p.1 ∧ p.2 = entry) ∧
    find_best_matching_folder ["os"] [("costume", ⟨"/notes/costume", 1⟩)] = none := by
  constructor
  · intro tags folders entry mt hmem
    rw [collectMatches, List.mem_flatMap] at hmem
    obtain ⟨t, ht, hmem2⟩ := hmem
    rw [List.mem_filterMap] at hmem2
    obtain ⟨p, hp, heq⟩ := hmem2
    by_cases hc : lowerStr t = p.1
    · rw [if_pos hc] at heq
      simp only [Option.some.injEq, Prod.mk.injEq] at heq
      exact ⟨heq.2.symm, t, ht, p, hp, hc, heq.1⟩
    · rw [if_neg hc] at heq
      simp at heq
  · decide

theorem C2_exact_match_witness :
    "exact" = "exact" ∧ ∃ t ∈ non_date_tags ["CS"],
      ∃ p ∈ [("cs", (⟨"/r/cs", 1⟩ : FolderEntry))],
        lowerStr t = p.1 ∧ p.2 = (⟨"/r/cs", 1⟩ : FolderEntry) :=
  C2_exact_match_only.1 ["CS"] [("cs", ⟨"/r/cs", 1⟩)] ⟨"/r/cs", 1⟩ "exact" (by decide)

/-- Claim C3: the extractor prefers the `***Tags:**` block, returning
exactly that block's bracketed tokens in file order with duplicates
preserved; only when no such block matches does it return every
double-bracket token of the document; it returns the empty sequence
when neither pattern matches and, being a total function, never fails
on malformed or unterminated bracket syntax. -/
theorem C3_tag_extractor :
    (∀ (content : String) (g : List Char), searchTagsBlock content.data = some g →
        extract_tags content = findAllBrackets g) ∧
    (∀ content : String, searchTagsBlock content.data = none →
        extract_tags content = findAllBrackets content.data) ∧
    extract_tags "# note\n***Tags:** [[cs]] [[cs]] [[2024-01-01]]\nBody [[other]]" =
      ["cs", "cs", "2024-01-01"] ∧
    extract_tags "Intro [[alpha]] mid [[beta]]" = ["alpha", "beta"] ∧
    extract_tags "***Tags:* [[unterminated" = [] ∧
    extract_tags "***Tags:**\n\n[[a]] [[b]]\n[[c]]" = ["a", "b"] := by
  refine ⟨?_, ?_, by decide, by decide, by decide, by decide⟩
  · intro content g h
    rw [extract_tags, h]
  · intro content h
    rw [extract_tags, h]

theorem C3_tag_extractor_witness :
    extract_tags "***Tags:** [[x]]" = findAllBrackets "[[x]]".data :=
  C3_tag_extractor.1 "***Tags:** [[x]]" "[[x]]".data (by decide)

/-- Claim C4, counterexample: the tag consisting of a date shape plus
one trailing newline is removed by the filter although its full text
is not digits-and-hyphens-only, because the regex `$` anchor also
matches just before a final newline; the filter therefore does not
remove exactly the four spec shapes. -/
theorem C4_date_filter_counterexample :
    non_date_tags ["2024-01-01\n"] = [] ∧
      ["2024-01-01\n"].filter (fun t => !dateShapeSpec t) = ["2024-01-01\n"] := by
  decide

/-- Claim C4, amended: the filter removes exactly the tags matching
one of the four date shapes optionally followed by a single trailing
newline, preserving the order of the rest; and when every tag is a
date, the selector reports no candidate without attempting a match. -/
theorem C4_date_filter_amended :
    (∀ t : String, is_date_tag t = dateShapeSpecNL t) ∧
    (∀ tags : List String, non_date_tags tags =
        tags.filter (fun t => !dateShapeSpecNL t)) ∧
    (∀ (tags : List String) (folders : List (String × FolderEntry)),
        (∀ t ∈ tags, is_date_tag t = true) →
        find_best_matching_folder tags folders = none) := by
  refine ⟨is_date_tag_eq_specNL, ?_, ?_⟩
  · intro tags
    rw [non_date_tags]
    exact List.filter_congr (fun t _ => by rw [is_date_tag_eq_specNL])
  · intro tags folders h
    have hnil : non_date_tags tags = [] :=
      List.filter_eq_nil_iff.mpr (fun t ht => by simp [h t ht])
    rw [find_best_matching_folder, hnil]
    simp

theorem C4_date_filter_witness :
    find_best_matching_folder ["2024-01-01", "2024-01"]
      [("2024-01-01", ⟨"/r/2024-01-01", 1⟩)] = none :=
  C4_date_filter_amended.2.2 ["2024-01-01", "2024-01"]
    [("2024-01-01", ⟨"/r/2024-01-01", 1⟩)] (by decide)

/-- Claim C5: the index maps each lower-cased name to exactly one
entry (its keys are pairwise distinct), and the entry stored under a
key is the value of the last assignment with that key in walk order
(last-write-wins); concretely, with folders `CS` at depth 1 and
`proj/cs` at depth 2, the surviving entry is the later-walked one. -/
theorem C5_index_last_write (srcDir : Option String) (rootPath : String) (t : DirTreeR) :
    ((get_existing_folders srcDir rootPath t).map Prod.fst).Nodup ∧
    (∀ k, lookupKey k (get_existing_folders srcDir rootPath t) =
      lastWrite (folderInsertions srcDir rootPath t) k) ∧
    lookupKey "cs" (get_existing_folders none "/r"
        (.mk "r" true [.mk "CS" true [], .mk "proj" true [.mk "cs" true []]])) =
      some ⟨"/r/proj/cs", 2⟩ := by
  refine ⟨?_, ?_, by decide⟩
  · rw [get_existing_folders_eq_fold]
    exact nodupKeys_foldl_insertFolder _ [] (by simp)
  · intro k
    rw [get_existing_folders_eq_fold, lookupKey_foldl_insertFolder]
    rfl

/-- Claim C6, counterexample: the `.git` directory itself and the
source directory itself do appear as index entries (their names are
listed by their readable parent before the skip guards can act); only
what lies below them is excluded.  This contradicts the claim that no
directory whose path contains the marker segment, and not the source
directory, appears as an entry. -/
theorem C6_walk_exclusions_counterexample :
    lookupKey ".git" (get_existing_folders (some "/vault/inbox") "/vault" gitTree) =
      some ⟨"/vault/.git", 1⟩ ∧
    lookupKey "objects" (get_existing_folders (some "/vault/inbox") "/vault" gitTree) =
      none ∧
    lookupKey "inbox" (get_existing_folders (some "/vault/inbox") "/vault" gitTree) =
      some ⟨"/vault/inbox", 1⟩ ∧
    lookupKey "drafts" (get_existing_folders (some "/vault/inbox") "/vault" gitTree) =
      none := by
  decide

/-- Claim C6, amended: a key is present in the index exactly when some
walked (readable) directory whose path neither contains `.git` as a
substring nor equals the source directory lists a child of that
lower-cased name — so the children of `.git` paths and of the source
directory are the excluded ones, while a `.git` folder or the source
folder itself is still indexed via its parent. -/
theorem C6_walk_exclusions_amended (srcDir : Option String) (rootPath : String)
    (t : DirTreeR) (k : String) :
    (lookupKey k (get_existing_folders srcDir rootPath t)).isSome = true ↔
      ∃ e ∈ walkAt rootPath 0 t, skipDir srcDir e.1 = false ∧
        ∃ n ∈ e.2.2, lowerStr n = k :=
  index_key_characterization srcDir rootPath t k

/-- Claim C7, counterexample: a directory below the root that cannot
be read is not omitted from the index — it is indexed by name via its
readable parent; only its contents are missing. -/
theorem C7_access_counterexample :
    lookupKey "docs" (get_existing_folders none "/r" unreadableTree) =
      some ⟨"/r/docs", 1⟩ ∧
    lookupKey "inner" (get_existing_folders none "/r" unreadableTree) = none := by
  decide

/-- Claim C7, amended: the builder never fails.  An unreadable root
produces an empty index (returned normally — `os.walk` with
`onerror=None` yields nothing rather than raising), and the contents
of unreadable directories below the root are simply invisible: pruning
everything below unreadable directories leaves the index unchanged. -/
theorem C7_access_amended :
    (∀ (srcDir : Option String) (rootPath n : String) (subs : List DirTreeR),
        get_existing_folders srcDir rootPath (.mk n false subs) = []) ∧
    (∀ (srcDir : Option String) (rootPath : String) (t : DirTreeR),
        get_existing_folders srcDir rootPath (pruneUnreadable t) =
          get_existing_folders srcDir rootPath t) := by
  constructor
  · intro srcDir rootPath n subs
    rfl
  · intro srcDir rootPath t
    simp only [get_existing_folders, walkAt_prune]

/-- Claim C8: on a name collision the relocation step appends `_n`
before the extension with the least `n ≥ 1` whose candidate is free
(everything below `n` is taken); in particular `note.md` against
`note.md` gives `note_1.md`, and against both `note.md` and
`note_1.md` gives `note_2.md`. -/
theorem C8_collision_naming :
    (∀ (existing : List String) (name : String), name ∈ existing →
      ∃ n : Nat, destName existing name =
          candName (splitext name).1 (splitext name).2 n ∧
        1 ≤ n ∧
        candName (splitext name).1 (splitext name).2 n ∉ existing ∧
        ∀ m, 1 ≤ m → m < n → candName (splitext name).1 (splitext name).2 m ∈ existing) ∧
    destName ["note.md"] "note.md" = "note_1.md" ∧
    destName ["note.md", "note_1.md"] "note.md" = "note_2.md" := by
  refine ⟨?_, by decide, by decide⟩
  intro existing name hmem
  refine ⟨destNameLoop existing (splitext name).1 (splitext name).2 1
    (existing.length + 1), ?_, ?_, ?_, ?_⟩
  · rw [destName, if_pos (List.elem_iff.mpr hmem)]
  · exact destNameLoop_ge existing (splitext name).1 (splitext name).2 _ 1
  · obtain ⟨j, hj1, hj2, hjfree⟩ :=
      exists_free_cand existing (splitext name).1 (splitext name).2
    exact destNameLoop_free existing (splitext name).1 (splitext name).2
      (existing.length + 1) 1 j hj1 (by omega) hjfree
  · intro m hm1 hm2
    exact destNameLoop_below_taken existing (splitext name).1 (splitext name).2
      (existing.length + 1) 1 m hm1 hm2

theorem C8_collision_naming_witness :
    ∃ n : Nat, destName ["note.md"] "note.md" =
        candName (splitext "note.md").1 (splitext "note.md").2 n ∧
      1 ≤ n ∧
      candName (splitext "note.md").1 (splitext "note.md").2 n ∉ ["note.md"] ∧
      ∀ m, 1 ≤ m → m < n →
        candName (splitext "note.md").1 (splitext "note.md").2 m ∈ ["note.md"] :=
  C8_collision_naming.1 ["note.md"] "note.md" (by decide)

/-- Claim C9: a document whose parent directory (the source directory)
already equals the selected destination under normalized path
comparison is not moved; consequently a second run of the router over
the tree left by a first run performs zero moves. -/
theorem C9_relocator_noop_idempotent :
    (∀ (idx : List (String × FolderEntry)) (fs : FS) (e : SrcEntry) (t : String),
        decision idx e = some t → normpath fs.sourceDir = normpath t →
        processFile idx fs e = (fs, false)) ∧
    (∀ (rootPath : String) (tree : DirTreeR) (fs : FS),
        (fs.entries.map SrcEntry.name).Nodup →
        (sort_markdown_files rootPath tree
          (sort_markdown_files rootPath tree fs).1).2 = 0) := by
  constructor
  · intro idx fs e t hd hn
    simp [processFile, hd, hn]
  · intro rootPath tree fs hnd
    have hsrc : (sort_markdown_files rootPath tree fs).1.sourceDir = fs.sourceDir :=
      runFiles_sourceDir _ _ _
    show (sortRun (get_existing_folders
        (some (sort_markdown_files rootPath tree fs).1.sourceDir) rootPath tree)
        (sort_markdown_files rootPath tree fs).1).2 = 0
    rw [hsrc]
    exact sortRun_twice_zero (get_existing_folders (some fs.sourceDir) rootPath tree) fs hnd

theorem C9_relocator_witness :
    (sort_markdown_files "/r" tree9 (sort_markdown_files "/r" tree9 fs9).1).2 = 0 :=
  C9_relocator_noop_idempotent.2 "/r" tree9 fs9 (by decide)

/-- Claim C10: exactly the regular files directly in the source
directory whose name ends case-insensitively in `.md` are captured as
documents, and every other entry of the source listing is left exactly
where it is by a run — never read for tags, never moved. -/
theorem C10_document_selection :
    (∀ fs : FS, ∀ e ∈ markdownFiles fs,
        e.isFile = true ∧ ".md".data.isSuffixOf (lowerStr e.name).data = true) ∧
    (∀ (fs : FS) (e : SrcEntry), e ∈ fs.entries → isMarkdownFile e = true →
        e ∈ markdownFiles fs) ∧
    (∀ (idx : List (String × FolderEntry)) (fs : FS) (e : SrcEntry),
        (fs.entries.map SrcEntry.name).Nodup → e ∈ fs.entries →
        isMarkdownFile e = false → e ∈ (sortRun idx fs).1.entries) := by
  refine ⟨?_, ?_, ?_⟩
  · intro fs e he
    have h := List.of_mem_filter he
    rw [isMarkdownFile, Bool.and_eq_true] at h
    exact ⟨h.2, h.1⟩
  · intro fs e he hmd
    exact List.mem_filter.mpr ⟨he, hmd⟩
  · intro idx fs e hnd he hmd
    have hsub : markdownFiles fs ⊆ fs.entries := List.filter_subset' fs.entries
    have hmdnodup : ((markdownFiles fs).map SrcEntry.name).Nodup :=
      hnd.sublist ((List.filter_sublist fs.entries).map SrcEntry.name)
    have hmdall : ∀ x ∈ markdownFiles fs, isMarkdownFile x = true := fun x hx =>
      List.of_mem_filter hx
    have h5 : ∀ x ∈ fs.entries, isMarkdownFile x = true →
        stableB idx fs.sourceDir x = true ∨ x ∈ markdownFiles fs := fun x hx hmdx =>
      Or.inr (List.mem_filter.mpr ⟨hx, hmdx⟩)
    obtain ⟨_, _, c3⟩ := runFiles_master idx (markdownFiles fs) fs hnd hmdnodup hsub
      hmdall h5
    exact c3 e he hmd

theorem C10_document_selection_witness :
    (⟨"data.txt", true, "[[cs]]"⟩ : SrcEntry) ∈ (sortRun idx9 fs9).1.entries :=
  C10_document_selection.2.2 idx9 fs9 ⟨"data.txt", true, "[[cs]]"⟩
    (by decide) (by decide) (by decide)

end ObsidianOrganizer
